import Mathlib

/-!
Shallow embedding of the `craft_preprocessing` repository
(`src/CRAFT/article.py`, `src/CRAFT/exceptions.py`, `src/utils/preprocessing.py`)
and verification of the frozen claims about it.

Modelling conventions:
* Python strings are `List Char`; `t[a:b]` slicing is `sliceN` / `sliceI`.
* Annotation offsets are `Int` (Python integers may go negative after the
  unclamped shifts of `remove_from_regex`).
* `re.finditer` is modelled by `finditer`: a left-to-right scanner driven by a
  per-position matcher `matchAt : List Char → Option Nat` returning the length
  of the (leftmost, non-overlapping, greedy) match at the head of the suffix.
  The three concrete regexes of the repository are `matchCite`
  (citations, regex `\[[0-9, -]+\]`), `matchWs` (whitespace runs, `[ ]{2,}`)
  and `matchNl` (newline runs, `[\n]{1,}`).
* Exceptions are `Except` values.
-/

/-- Python slice `t[a:b]` for natural-number bounds. -/
def sliceN (t : List Char) (a b : Nat) : List Char :=
  (t.drop a).take (b - a)

/-- Python slice `t[a:b]` for integer bounds.  All slices appearing in the
claims have non-negative bounds; an empty slice (`b ≤ a`) is `[]` exactly as in
Python. -/
def sliceI (t : List Char) (a b : Int) : List Char :=
  (t.drop a.toNat).take (b - a).toNat

/-- An annotation record: `span` is an ordered list of (start, end)
character-offset pairs, together with the displayed text, the ontology id and
the concept label.  This models both the `Annotation` class of
`src/CRAFT/article.py` and the plain dicts handed around by `_get_info` /
`remove_from_regex` (they carry exactly these four fields).  The class's
`disjointed` / `overlapping` tags are never assigned anywhere in the
repository, so they are not modelled. -/
structure Annot where
  span : List (Int × Int)
  spanned_text : String
  id : String
  concept : String
deriving DecidableEq

/-- Characters matched by the regex class `[0-9, -]`. -/
def isCiteChar (c : Char) : Bool :=
  c.isDigit || c == ',' || c == ' ' || c == '-'

/-- Match attempt for the citation regex `\[[0-9, -]+\]` at the head of `xs`
(returns the length of the match, if any).  The character class excludes `]`,
so greedy matching consumes the maximal class run and then requires `]`. -/
def matchCite (xs : List Char) : Option Nat :=
  if xs.head? = some '[' ∧ 1 ≤ (xs.tail.takeWhile isCiteChar).length ∧
      (xs.tail.drop (xs.tail.takeWhile isCiteChar).length).head? = some ']' then
    some ((xs.tail.takeWhile isCiteChar).length + 2)
  else none

/-- Match attempt for the whitespace regex `[ ]{2,}` at the head of `xs`:
a maximal run of at least two ASCII spaces. -/
def matchWs (xs : List Char) : Option Nat :=
  if 2 ≤ (xs.takeWhile (fun c => c == ' ')).length then
    some ((xs.takeWhile (fun c => c == ' ')).length)
  else none

/-- Match attempt for the newline regex `[\n]{1,}` at the head of `xs`:
a maximal run of at least one newline. -/
def matchNl (xs : List Char) : Option Nat :=
  if 1 ≤ (xs.takeWhile (fun c => c == '\n')).length then
    some ((xs.takeWhile (fun c => c == '\n')).length)
  else none

/-- Fuel-driven scanner modelling `re.finditer`: try the matcher at every
position from left to right, skipping over each match (Python's leftmost,
non-overlapping semantics).  Returned spans are relative to the start of the
scanned list. -/
def finditerF (matchAt : List Char → Option Nat) : Nat → List Char → List (Nat × Nat)
  | 0, _ => []
  | _ + 1, [] => []
  | fuel + 1, c :: rest =>
    match matchAt (c :: rest) with
    | some n =>
      (0, n) :: (finditerF matchAt fuel ((c :: rest).drop n)).map (fun m => (m.1 + n, m.2 + n))
    | none => (finditerF matchAt fuel rest).map (fun m => (m.1 + 1, m.2 + 1))

/-- `list(re.finditer(rule, t))`, as spans. -/
def finditer (matchAt : List Char → Option Nat) (t : List Char) : List (Nat × Nat) :=
  finditerF matchAt t.length t

/-- `offset = span[1] - span[0] - len(replacement_string)` of
`remove_from_regex` (line 31 of `article.py`). -/
def matchOff (replLen : Nat) (m : Nat × Nat) : Int :=
  (m.2 : Int) - (m.1 : Int) - (replLen : Int)

/-- The per-pair update of `remove_from_regex` (lines 36-42 of `article.py`):
a span pair whose start is `>=` the match start has the offset subtracted from
both components, any other pair is kept. -/
def shiftPair (a : Nat) (off : Int) (p : Int × Int) : Int × Int :=
  if (a : Int) ≤ p.1 then (p.1 - off, p.2 - off) else p

/-- The per-annotation update for one processed match. -/
def stepAnn (repl : List Char) (m : Nat × Nat) (a : Annot) : Annot :=
  { a with span := a.span.map (shiftPair m.1 (matchOff repl.length m)) }

/-- The text splice for one processed match
(`new_article[:span[0]] + replacement_string + new_article[span[1]:]`). -/
def textStep (repl : List Char) (t : List Char) (m : Nat × Nat) : List Char :=
  t.take m.1 ++ repl ++ t.drop m.2

/-- One iteration of the match loop of `remove_from_regex`. -/
def stepState (repl : List Char) (st : List Char × List Annot) (m : Nat × Nat) :
    List Char × List Annot :=
  (textStep repl st.1 m, st.2.map (stepAnn repl m))

/-- The loop of `remove_from_regex` (lines 25-46 of `article.py`): matches are
reversed and processed back-to-front; the annotation list is reversed before
the loop and reversed back afterwards. -/
def processMatches (article : List Char) (anns : List Annot) (ms : List (Nat × Nat))
    (repl : List Char) : List Char × List Annot :=
  let res := (ms.reverse).foldl (stepState repl) (article, anns.reverse)
  (res.1, res.2.reverse)

/-- `remove_from_regex(article, annotations, rule, replacement_string)` with
the regex `rule` represented by its per-position matcher. -/
def remove_from_regex (article : List Char) (anns : List Annot)
    (matchAt : List Char → Option Nat) (repl : List Char) : List Char × List Annot :=
  processMatches article anns (finditer matchAt article) repl

/-- `remove_citations_from_text` (line 82 of `article.py`). -/
def remove_citations_from_text (article : List Char) (anns : List Annot) :
    List Char × List Annot :=
  remove_from_regex article anns matchCite []

/-- `remove_multiple_whitespaces_from_text` (line 135 of `article.py`). -/
def remove_multiple_whitespaces_from_text (article : List Char) (anns : List Annot) :
    List Char × List Annot :=
  remove_from_regex article anns matchWs [' ']

/-- A `Sentence` (class in `article.py`).  The `updated_sentences` field of the
Python class is never written by any operation of the repository and is not
modelled; `annotations = None` at construction is modelled by `[]`. -/
structure Sentence where
  original_text : List Char
  text : List Char
  span : Nat × Nat
  next : List Char
  annotations : List Annot
deriving DecidableEq

/-- The `Sentence.__init__` constructor: `span = (start_idx, start_idx + len(text))`. -/
def mkSentence (text : List Char) (start_idx : Nat) (next : List Char) : Sentence :=
  { original_text := text
    text := text
    span := (start_idx, start_idx + text.length)
    next := next
    annotations := [] }

/-- One step of the loop of `Article._split_on_newline`: emit the chunk from
the previous index up to the match start, with the matched newline run as its
`next` separator, and move the index to the match end. -/
def splitStep (text : List Char) (st : List Sentence × Nat) (m : Nat × Nat) :
    List Sentence × Nat :=
  (st.1 ++ [mkSentence (sliceN text st.2 m.1) st.2 (sliceN text m.1 m.2)], m.2)

/-- `Article._split_on_newline` (lines 221-234 of `article.py`): returns the
produced sentence list together with the final `temp_idx`.  Note the loop body
runs only per newline match; nothing is emitted for text after the last
newline run. -/
def splitOnNewline (text : List Char) : List Sentence × Nat :=
  (finditer matchNl text).foldl (splitStep text) ([], 0)

/-- Concatenation of each sentence's text followed by its `next` separator, in
order (the round-trip reconstruction of the spec). -/
def joinSents (ss : List Sentence) : List Char :=
  (ss.map (fun s => s.text ++ s.next)).flatten

/-- An `Article` (class in `article.py`).  Raw dict records and `Annotation`
entities coincide in this model, so the `isinstance` conversion in
`__init__` is the identity. -/
structure Article where
  original_text : List Char
  original_annotations : List Annot
  annotations : List Annot
  text : Option (List Char)
  sentences : List Sentence
  idx : Nat

/-- `Article.__init__(article, annotations)`. -/
def mkArticle (article : List Char) (anns : List Annot) : Article :=
  { original_text := article
    original_annotations := anns
    annotations := anns
    text := none
    sentences := []
    idx := 0 }

/-- One sentence object reported by the external SpaCy-like parser:
`sent.text`, `sent.start_char` and `sent.text_with_ws`. -/
structure PSent where
  text : List Char
  start_char : Nat
  text_with_ws : List Char

/-- The parsed document: its sentence list and the truth value of
`doc.has_annotation("SENT_START")`. -/
structure Doc where
  sents : List PSent
  hasSentStart : Bool

/-- The errors `Article.segment_sentences` can raise: `MissingParserError`
(from `src/CRAFT/exceptions.py`) when no parser is supplied, and the
`assert doc.has_annotation("SENT_START")` failure. -/
inductive SegErr where
  | missingParser
  | sentStartFailed
deriving DecidableEq

/-- `first span start` of an annotation, i.e. `annot_spans[0][0]`
(the default for an empty span list is irrelevant: Python would raise there and
every use below assumes a non-empty span). -/
def firstStart (a : Annot) : Int :=
  match a.span with
  | [] => 0
  | p :: _ => p.1

/-- `last span end` of an annotation, i.e. `annot_spans[-1][1]`. -/
def lastEnd (a : Annot) : Int :=
  match a.span.getLast? with
  | none => 0
  | some p => p.2

/-- Python `s.replace(pat, "")`: remove every (leftmost, non-overlapping)
occurrence of `pat`.  Used for `sent.text_with_ws.replace(sent.text, "")`. -/
def replAllF (pat : List Char) : Nat → List Char → List Char
  | 0, s => s
  | _ + 1, [] => []
  | fuel + 1, c :: rest =>
    if pat.isPrefixOf (c :: rest) then replAllF pat fuel ((c :: rest).drop pat.length)
    else c :: replAllF pat fuel rest

/-- Python `s.replace(pat, "")` (replacing an empty pattern by the empty
string returns the string unchanged). -/
def replaceAll (s pat : List Char) : List Char :=
  if pat.isEmpty then s else replAllF pat s.length s

/-- The inner loop of `Article.segment_sentences` over one newline chunk
(lines 246-270 of `article.py`): for each parser sentence build a `Sentence`
at absolute offset `chunk.span[0] + sent.start_char`, with `next` taken from
the chunk for the last sentence and from
`sent.text_with_ws.replace(sent.text, "")` otherwise, and attach exactly those
article annotations whose first span start is `>=` the sentence's absolute
start and whose last span end is `<=` absolute start + text length. -/
def segmentChunk (anns : List Annot) (chunk : Sentence) (doc : Doc) : List Sentence :=
  (doc.sents.enum).map (fun pr =>
    let sent := pr.2
    let nxt := if pr.1 = doc.sents.length - 1 then chunk.next
      else replaceAll sent.text_with_ws sent.text
    let start_idx := chunk.span.1 + sent.start_char
    let reqd := anns.filter (fun a =>
      decide ((start_idx : Int) ≤ firstStart a ∧
        lastEnd a ≤ (start_idx : Int) + (sent.text.length : Int)))
    { mkSentence sent.text start_idx nxt with annotations := reqd })

/-- The chunk loop of `Article.segment_sentences`: each chunk's parse must
report sentence starts (otherwise the `assert` fires), and the per-chunk
sentences are concatenated in order. -/
def segChunks (anns : List Annot) (p : List Char → Doc) :
    List Sentence → Except SegErr (List Sentence)
  | [] => Except.ok []
  | chunk :: rest =>
    let doc := p chunk.text
    if doc.hasSentStart then
      (segChunks anns p rest).map (fun tail => segmentChunk anns chunk doc ++ tail)
    else Except.error SegErr.sentStartFailed

/-- `Article.segment_sentences(parser)` (lines 236-274 of `article.py`):
raises `MissingParserError` when no parser is supplied, otherwise splits the
original text on newlines and segments each chunk.  The result is the
`segmented_sents` list (stored on the article when `inplace`). -/
def Article.segment_sentences (art : Article) (parser : Option (List Char → Doc)) :
    Except SegErr (List Sentence) :=
  match parser with
  | none => Except.error SegErr.missingParser
  | some p => segChunks art.annotations p (splitOnNewline art.original_text).1

/-- `Annotation._get_info`: the four-field record of an annotation. -/
def Annot.get_info (a : Annot) : Annot :=
  { span := a.span
    spanned_text := a.spanned_text
    id := a.id
    concept := a.concept }

/-- The dynamic-typing error of the cleanup methods: with an empty annotation
list the methods pass `self.original_text` (a string) where `remove_from_regex`
expects a list, and `annotations[::-1].copy()` (line 27 of `article.py`)
raises `AttributeError` because `str` has no `copy` method. -/
inductive PyErr where
  | attributeError
deriving DecidableEq

/-- `remove_from_regex` as called by the `Article` cleanup methods, where the
second argument is either a list of annotation records or—through the falsy
fallback—the article's original text string.  In the string case Python fails
at `annotations[::-1].copy()` with an `AttributeError` before any processing. -/
def remove_from_regex_dyn (article : List Char) (arg : List Annot ⊕ List Char)
    (matchAt : List Char → Option Nat) (repl : List Char) :
    Except PyErr (List Char × List Annot) :=
  match arg with
  | Sum.inl anns => Except.ok (remove_from_regex article anns matchAt repl)
  | Sum.inr _ => Except.error PyErr.attributeError

/-- The argument built by
`[i._get_info() for i in self.annotations] if self.annotations else self.original_text`. -/
def Article.annots_arg (art : Article) : List Annot ⊕ List Char :=
  if art.annotations.isEmpty then Sum.inr art.original_text
  else Sum.inl (art.annotations.map Annot.get_info)

/-- The text used by the cleanup methods:
`self.text if self.text else self.original_text` (both `None` and the empty
string are falsy). -/
def Article.current_text (art : Article) : List Char :=
  match art.text with
  | some t => if t.isEmpty then art.original_text else t
  | none => art.original_text

/-- Rebuild an `Annotation` entity from a returned record, as the cleanup
methods do after an in-place edit. -/
def annotFromDict (d : Annot) : Annot :=
  { span := d.span
    spanned_text := d.spanned_text
    id := d.id
    concept := d.concept }

/-- `Article.remove_citations(inplace)` (lines 276-288 of `article.py`).
`inplace=True` installs the new text and annotations on the article (returning
it with `none`); `inplace=False` leaves the article untouched and returns the
new pair. -/
def Article.remove_citations (art : Article) (inplace : Bool) :
    Except PyErr (Article × Option (List Char × List Annot)) :=
  match remove_from_regex_dyn art.current_text art.annots_arg matchCite [] with
  | Except.error e => Except.error e
  | Except.ok (nt, na) =>
    if inplace then
      Except.ok ({ art with text := some nt, annotations := na.map annotFromDict }, none)
    else Except.ok (art, some (nt, na))

/-- `Article.remove_multiple_whitespaces(inplace)` (lines 290-302 of
`article.py`). -/
def Article.remove_multiple_whitespaces (art : Article) (inplace : Bool) :
    Except PyErr (Article × Option (List Char × List Annot)) :=
  match remove_from_regex_dyn art.current_text art.annots_arg matchWs [' '] with
  | Except.error e => Except.error e
  | Except.ok (nt, na) =>
    if inplace then
      Except.ok ({ art with text := some nt, annotations := na.map annotFromDict }, none)
    else Except.ok (art, some (nt, na))

/-- The overlap test of `disjoint_and_overlapping`
(lines 159-160 of `src/utils/preprocessing.py`), on outer ranges
`(span[0][0], span[-1][1])`:
`start_j <= start_i < end_j or start_j <= end_i < end_j or
 start_i <= start_j < end_i or start_i <= end_j < end_i`. -/
def overlapTest (aj ai : Annot) : Bool :=
  (decide (firstStart aj ≤ firstStart ai ∧ firstStart ai < lastEnd aj)) ||
  (decide (firstStart aj ≤ lastEnd ai ∧ lastEnd ai < lastEnd aj)) ||
  (decide (firstStart ai ≤ firstStart aj ∧ firstStart aj < lastEnd ai)) ||
  (decide (firstStart ai ≤ lastEnd aj ∧ lastEnd aj < lastEnd ai))

/-- `disjoint_and_overlapping(sentence)` (lines 116-167 of
`src/utils/preprocessing.py`): an annotation is disjoint when it overlaps at
most one annotation of the sentence (itself included); the disjoint list is
sorted by span start descending (Python's stable `sorted` with
`reverse=True`), the rest, sorted ascending, is the overlapping list. -/
def disjoint_and_overlapping (sentence : Sentence) : List Annot × List Annot :=
  let anns := sentence.annotations
  let disjointRaw := anns.filter (fun ai =>
    decide (anns.countP (fun aj => overlapTest aj ai) ≤ 1))
  let disjoint := disjointRaw.insertionSort (fun a b => firstStart b ≤ firstStart a)
  let overlapping0 := anns.filter (fun x => !(disjoint.contains x))
  let overlapping := overlapping0.insertionSort (fun a b => firstStart a ≤ firstStart b)
  (disjoint, overlapping)

/-! ### The match loop as a right fold

`remove_from_regex` reverses the match list and folds from the left, which is
the same as folding the original (ascending) match list from the right:
the rightmost match is processed first.  The text and every span pair evolve
independently, giving the three folds below. -/

/-- The text after processing `ms` rightmost-first. -/
def textProc (repl : List Char) (ms : List (Nat × Nat)) (t : List Char) : List Char :=
  ms.foldr (fun m acc => textStep repl acc m) t

/-- A single span pair after processing `ms` rightmost-first. -/
def pairProc (repl : List Char) (ms : List (Nat × Nat)) (p : Int × Int) : Int × Int :=
  ms.foldr (fun m q => shiftPair m.1 (matchOff repl.length m) q) p

/-- An annotation after processing `ms` rightmost-first. -/
def annProc (repl : List Char) (ms : List (Nat × Nat)) (a : Annot) : Annot :=
  { a with span := a.span.map (pairProc repl ms) }

theorem annProc_nil (repl : List Char) (a : Annot) : annProc repl [] a = a := by
  unfold annProc
  rw [@List.map_id'' (Int × Int) (pairProc repl []) (fun p => rfl) a.span]

theorem annProc_cons (repl : List Char) (m : Nat × Nat) (ms : List (Nat × Nat)) (a : Annot) :
    stepAnn repl m (annProc repl ms a) = annProc repl (m :: ms) a := by
  unfold stepAnn annProc
  congr 1
  rw [List.map_map]
  exact List.map_congr_left (fun p _ => rfl)

theorem foldr_stepState (repl : List Char) :
    ∀ (ms : List (Nat × Nat)) (t : List Char) (l : List Annot),
      ms.foldr (fun m st => stepState repl st m) (t, l) =
        (textProc repl ms t, l.map (annProc repl ms))
  | [], t, l => by
    simp only [List.foldr_nil, textProc]
    rw [List.map_id'' (annProc_nil repl) l]
  | m :: ms, t, l => by
    have ih := foldr_stepState repl ms t l
    rw [List.foldr_cons, ih]
    have h2 : (l.map (annProc repl ms)).map (stepAnn repl m) = l.map (annProc repl (m :: ms)) := by
      rw [List.map_map]
      exact List.map_congr_left (fun a _ => annProc_cons repl m ms a)
    show stepState repl (textProc repl ms t, l.map (annProc repl ms)) m = _
    unfold stepState
    rw [h2]
    rfl

/-- `processMatches` equals the right fold over the ascending match list. -/
theorem processMatches_eq (article : List Char) (anns : List Annot) (ms : List (Nat × Nat))
    (repl : List Char) :
    processMatches article anns ms repl =
      (textProc repl ms article, anns.map (annProc repl ms)) := by
  unfold processMatches
  rw [List.foldl_reverse, foldr_stepState]
  simp [← List.map_reverse]

/-! ### Well-formed match lists

`re.finditer` returns matches in ascending document order, non-overlapping and
inside the text.  `MatchesWF` captures order and disjointness; bounds are kept
as separate hypotheses. -/

/-- Matches are ordered (`start ≤ end`) and ascending without overlap. -/
def MatchesWF : List (Nat × Nat) → Prop
  | [] => True
  | m :: rest => m.1 ≤ m.2 ∧ (∀ m' ∈ rest, m.2 ≤ m'.1) ∧ MatchesWF rest

instance instDecidableMatchesWF : (ms : List (Nat × Nat)) → Decidable (MatchesWF ms)
  | [] => Decidable.isTrue trivial
  | m :: rest =>
    haveI := instDecidableMatchesWF rest
    decidable_of_iff (m.1 ≤ m.2 ∧ (∀ m' ∈ rest, m.2 ≤ m'.1) ∧ MatchesWF rest) Iff.rfl

/-- Total length change produced by processing a list of matches. -/
def totOff (replLen : Nat) : List (Nat × Nat) → Int
  | [] => 0
  | m :: rest => matchOff replLen m + totOff replLen rest

theorem totOff_le (replLen : Nat) :
    ∀ (ms : List (Nat × Nat)) (lo : Nat) (hi : Int), MatchesWF ms →
      (∀ m ∈ ms, lo ≤ m.1) → (∀ m ∈ ms, (m.2 : Int) ≤ hi) → (lo : Int) ≤ hi →
      totOff replLen ms ≤ hi - (lo : Int)
  | [], lo, hi, _, _, _, hbase => by
    simp only [totOff]
    omega
  | m :: rest, lo, hi, hwf, hlo, hhi, hbase => by
    obtain ⟨h1, h2, h3⟩ := hwf
    have hm2 : (m.2 : Int) ≤ hi := hhi m (List.mem_cons_self m rest)
    have hr : totOff replLen rest ≤ hi - (m.2 : Int) :=
      totOff_le replLen rest m.2 hi h3 h2 (fun x hx => hhi x (List.mem_cons_of_mem m hx)) hm2
    have hm1 : lo ≤ m.1 := hlo m (List.mem_cons_self m rest)
    simp only [totOff, matchOff]
    omega

theorem textProc_cons (repl : List Char) (m : Nat × Nat) (ms : List (Nat × Nat)) (t : List Char) :
    textProc repl (m :: ms) t = textStep repl (textProc repl ms t) m := rfl

theorem textProc_length (repl : List Char) :
    ∀ (ms : List (Nat × Nat)) (t : List Char), MatchesWF ms → (∀ m ∈ ms, m.2 ≤ t.length) →
      ((textProc repl ms t).length : Int) = (t.length : Int) - totOff repl.length ms
  | [], t, _, _ => by simp [textProc, totOff]
  | m :: rest, t, hwf, hbd => by
    obtain ⟨h1, h2, h3⟩ := hwf
    have ih := textProc_length repl rest t h3 (fun x hx => hbd x (List.mem_cons_of_mem m hx))
    have hto : totOff repl.length rest ≤ (t.length : Int) - (m.2 : Int) :=
      totOff_le repl.length rest m.2 (t.length : Int) h3 h2
        (fun x hx => by exact_mod_cast hbd x (List.mem_cons_of_mem m hx))
        (by exact_mod_cast hbd m (List.mem_cons_self m rest))
    have hlen : m.2 ≤ (textProc repl rest t).length := by omega
    rw [textProc_cons]
    unfold textStep
    simp only [List.length_append, List.length_take, List.length_drop, totOff, matchOff]
    omega

theorem le_textProc_length (repl : List Char) (ms : List (Nat × Nat)) (t : List Char) (b : Nat)
    (hwf : MatchesWF ms) (hbd : ∀ m ∈ ms, m.2 ≤ t.length) (hlo : ∀ m ∈ ms, b ≤ m.1)
    (hb : b ≤ t.length) : b ≤ (textProc repl ms t).length := by
  have h1 := textProc_length repl ms t hwf hbd
  have h2 := totOff_le repl.length ms b (t.length : Int) hwf hlo
    (fun x hx => by exact_mod_cast hbd x hx) (by exact_mod_cast hb)
  omega

/-- The processed text is unchanged strictly before every match. -/
theorem textProc_take (repl : List Char) :
    ∀ (ms : List (Nat × Nat)) (t : List Char) (k : Nat), MatchesWF ms →
      (∀ m ∈ ms, m.2 ≤ t.length) → (∀ m ∈ ms, k ≤ m.1) →
      (textProc repl ms t).take k = t.take k
  | [], _, _, _, _, _ => rfl
  | m :: rest, t, k, hwf, hbd, hk => by
    obtain ⟨h1, h2, h3⟩ := hwf
    have hbd' : ∀ x ∈ rest, x.2 ≤ t.length := fun x hx => hbd x (List.mem_cons_of_mem m hx)
    have hkm : k ≤ m.1 := hk m (List.mem_cons_self m rest)
    have hk' : ∀ x ∈ rest, k ≤ x.1 := fun x hx => le_trans (le_trans hkm h1) (h2 x hx)
    have ih := textProc_take repl rest t k h3 hbd' hk'
    have hblen : m.2 ≤ (textProc repl rest t).length :=
      le_textProc_length repl rest t m.2 h3 hbd' h2 (hbd m (List.mem_cons_self m rest))
    have hlen1 : ((textProc repl rest t).take m.1).length = m.1 := by
      rw [List.length_take]
      omega
    rw [textProc_cons]
    unfold textStep
    rw [List.append_assoc, List.take_append_of_le_length (by rw [hlen1]; exact hkm),
      List.take_take, Nat.min_eq_left hkm]
    exact ih

/-- Dropping past all matches: position `s` in the original text corresponds
to position `s - totOff` in the processed text. -/
theorem textProc_drop (repl : List Char) :
    ∀ (ms : List (Nat × Nat)) (t : List Char) (s : Nat), MatchesWF ms →
      (∀ m ∈ ms, m.2 ≤ t.length) → (∀ m ∈ ms, m.2 ≤ s) →
      totOff repl.length ms ≤ (s : Int) ∧
      ∃ s' : Nat, (s' : Int) = (s : Int) - totOff repl.length ms ∧
        (textProc repl ms t).drop s' = t.drop s
  | [], t, s, _, _, _ => ⟨by simp [totOff], s, by simp [totOff], rfl⟩
  | m :: rest, t, s, hwf, hbd, hs => by
    obtain ⟨h1, h2, h3⟩ := hwf
    have hbd' : ∀ x ∈ rest, x.2 ≤ t.length := fun x hx => hbd x (List.mem_cons_of_mem m hx)
    have hs' : ∀ x ∈ rest, x.2 ≤ s := fun x hx => hs x (List.mem_cons_of_mem m hx)
    obtain ⟨hto, s1, hs1, hdrop⟩ := textProc_drop repl rest t s h3 hbd' hs'
    have hms : m.2 ≤ s := hs m (List.mem_cons_self m rest)
    have htor : totOff repl.length rest ≤ (s : Int) - (m.2 : Int) :=
      totOff_le repl.length rest m.2 (s : Int) h3 h2
        (fun x hx => by exact_mod_cast hs' x hx) (by exact_mod_cast hms)
    have hb1 : m.2 ≤ s1 := by omega
    have hblen : m.2 ≤ (textProc repl rest t).length :=
      le_textProc_length repl rest t m.2 h3 hbd' h2 (hbd m (List.mem_cons_self m rest))
    have hlen1 : ((textProc repl rest t).take m.1).length = m.1 := by
      rw [List.length_take]
      omega
    refine ⟨by simp only [totOff, matchOff]; omega,
      m.1 + repl.length + (s1 - m.2), by simp only [totOff, matchOff]; omega, ?_⟩
    rw [textProc_cons]
    unfold textStep
    rw [List.append_assoc,
      show m.1 + repl.length + (s1 - m.2) =
        ((textProc repl rest t).take m.1).length + (repl.length + (s1 - m.2)) from by
          rw [hlen1]; omega,
      List.drop_append, List.drop_append, List.drop_drop,
      show m.2 + (s1 - m.2) = s1 from by omega]
    exact hdrop

theorem pairProc_cons (repl : List Char) (m : Nat × Nat) (ms : List (Nat × Nat)) (p : Int × Int) :
    pairProc repl (m :: ms) p = shiftPair m.1 (matchOff repl.length m) (pairProc repl ms p) := rfl

/-- Shifting never changes the width of a pair. -/
theorem pairProc_sub (repl : List Char) :
    ∀ (ms : List (Nat × Nat)) (p : Int × Int),
      (pairProc repl ms p).2 - (pairProc repl ms p).1 = p.2 - p.1
  | [], _ => rfl
  | m :: rest, p => by
    have ih := pairProc_sub repl rest p
    rw [pairProc_cons]
    unfold shiftPair
    split
    · dsimp only
      omega
    · exact ih

/-- A pair strictly left of every match is never shifted. -/
theorem pairProc_outside (repl : List Char) :
    ∀ (ms : List (Nat × Nat)) (s e : Int), (∀ m ∈ ms, e ≤ (m.1 : Int)) → s < e →
      pairProc repl ms (s, e) = (s, e)
  | [], _, _, _, _ => rfl
  | m :: rest, s, e, h, hse => by
    have ih := pairProc_outside repl rest s e (fun x hx => h x (List.mem_cons_of_mem m hx)) hse
    rw [pairProc_cons, ih]
    have hm := h m (List.mem_cons_self m rest)
    unfold shiftPair
    rw [if_neg (by dsimp only; omega)]

/-- A pair at or past the end of every match is shifted by the total offset. -/
theorem pairProc_after (repl : List Char) :
    ∀ (ms : List (Nat × Nat)) (s e : Int), MatchesWF ms → (∀ m ∈ ms, (m.2 : Int) ≤ s) →
      pairProc repl ms (s, e) = (s - totOff repl.length ms, e - totOff repl.length ms)
  | [], s, e, _, _ => by simp [pairProc, totOff]
  | m :: rest, s, e, hwf, h => by
    obtain ⟨h1, h2, h3⟩ := hwf
    have ih := pairProc_after repl rest s e h3 (fun x hx => h x (List.mem_cons_of_mem m hx))
    rw [pairProc_cons, ih]
    have hms : (m.2 : Int) ≤ s := h m (List.mem_cons_self m rest)
    have htor : totOff repl.length rest ≤ s - (m.2 : Int) :=
      totOff_le repl.length rest m.2 s h3 h2 (fun x hx => h x (List.mem_cons_of_mem m hx)) hms
    unfold shiftPair
    rw [if_pos (by dsimp only; omega)]
    dsimp only
    simp only [totOff, matchOff, Prod.mk.injEq]
    exact ⟨by ring, by ring⟩

theorem textProc_append (repl : List Char) (L R : List (Nat × Nat)) (t : List Char) :
    textProc repl (L ++ R) t = textProc repl L (textProc repl R t) := by
  unfold textProc
  rw [List.foldr_append]

theorem pairProc_append (repl : List Char) (L R : List (Nat × Nat)) (p : Int × Int) :
    pairProc repl (L ++ R) p = pairProc repl L (pairProc repl R p) := by
  unfold pairProc
  rw [List.foldr_append]

theorem totOff_append (replLen : Nat) :
    ∀ (L R : List (Nat × Nat)), totOff replLen (L ++ R) = totOff replLen L + totOff replLen R
  | [], R => by simp [totOff]
  | m :: L, R => by
    show matchOff replLen m + totOff replLen (L ++ R) =
      matchOff replLen m + totOff replLen L + totOff replLen R
    rw [totOff_append replLen L R]
    ring

theorem MatchesWF_append_left :
    ∀ {L R : List (Nat × Nat)}, MatchesWF (L ++ R) → MatchesWF L
  | [], _, _ => trivial
  | m :: L, R, h => by
    obtain ⟨h1, h2, h3⟩ := h
    exact ⟨h1, fun x hx => h2 x (List.mem_append_left R hx), MatchesWF_append_left h3⟩

theorem MatchesWF_append_right :
    ∀ {L R : List (Nat × Nat)}, MatchesWF (L ++ R) → MatchesWF R
  | [], _, h => h
  | _ :: L, R, h => @MatchesWF_append_right L R h.2.2

/-- An ascending match list none of whose matches overlaps the non-empty
interval `[s, e)` splits into the matches entirely left of `s` followed by the
matches entirely right of `e`. -/
theorem matches_split :
    ∀ (ms : List (Nat × Nat)) (s e : Int), MatchesWF ms →
      (∀ m ∈ ms, e ≤ (m.1 : Int) ∨ (m.2 : Int) ≤ s) → s < e →
      ∃ L R, ms = L ++ R ∧ (∀ m ∈ L, (m.2 : Int) ≤ s) ∧ (∀ m ∈ R, e ≤ (m.1 : Int))
  | [], _, _, _, _, _ => ⟨[], [], rfl, by simp, by simp⟩
  | m :: rest, s, e, hwf, h, hse => by
    obtain ⟨h1, h2, h3⟩ := hwf
    rcases h m (List.mem_cons_self m rest) with hR | hL
    · refine ⟨[], m :: rest, rfl, by simp, ?_⟩
      intro x hx
      rcases List.mem_cons.mp hx with rfl | hx
      · exact hR
      · have hx1 := h2 x hx
        omega
    · obtain ⟨L, R, hEq, hLs, hRe⟩ :=
        matches_split rest s e h3 (fun x hx => h x (List.mem_cons_of_mem m hx)) hse
      refine ⟨m :: L, R, by rw [List.cons_append, hEq], ?_, hRe⟩
      intro x hx
      rcases List.mem_cons.mp hx with rfl | hx
      · exact hL
      · exact hLs x hx

theorem sliceI_coe (t : List Char) (a b : Nat) : sliceI t (a : Int) (b : Int) = sliceN t a b := by
  unfold sliceI sliceN
  rw [Int.toNat_ofNat]
  congr 1
  omega

/-- Core invariant of the span-preserving editor: a span pair that overlaps no
match slices the same substring out of the processed text as it did out of the
original text. -/
theorem textProc_pairProc_slice (repl : List Char) (ms : List (Nat × Nat)) (t : List Char)
    (s e : Nat) (hwf : MatchesWF ms) (hbd : ∀ m ∈ ms, m.2 ≤ t.length)
    (hse : s ≤ e) (he : e ≤ t.length)
    (hno : ∀ m ∈ ms, (e : Int) ≤ (m.1 : Int) ∨ (m.2 : Int) ≤ (s : Int)) :
    sliceI (textProc repl ms t) (pairProc repl ms ((s : Int), (e : Int))).1
      (pairProc repl ms ((s : Int), (e : Int))).2 = sliceN t s e := by
  rcases Nat.eq_or_lt_of_le hse with heq | hlt
  · subst heq
    have hsub := pairProc_sub repl ms ((s : Int), (s : Int))
    unfold sliceI sliceN
    rw [hsub]
    simp
  · obtain ⟨L, R, rfl, hLs, hRe⟩ :=
      matches_split ms (s : Int) (e : Int) hwf hno (by exact_mod_cast hlt)
    have hwfL := MatchesWF_append_left hwf
    have hwfR := MatchesWF_append_right hwf
    have hbdR : ∀ m ∈ R, m.2 ≤ t.length := fun m hm => hbd m (List.mem_append_right L hm)
    have hReN : ∀ m ∈ R, e ≤ m.1 := fun m hm => by
      have := hRe m hm
      exact_mod_cast this
    have hLsN : ∀ m ∈ L, m.2 ≤ s := fun m hm => by
      have := hLs m hm
      exact_mod_cast this
    have htake : (textProc repl R t).take e = t.take e :=
      textProc_take repl R t e hwfR hbdR hReN
    have helen : e ≤ (textProc repl R t).length :=
      le_textProc_length repl R t e hwfR hbdR hReN he
    have hbdL : ∀ m ∈ L, m.2 ≤ (textProc repl R t).length := fun m hm =>
      le_trans (le_trans (hLsN m hm) hse) helen
    have hpR : pairProc repl R ((s : Int), (e : Int)) = ((s : Int), (e : Int)) :=
      pairProc_outside repl R (s : Int) (e : Int) hRe (by exact_mod_cast hlt)
    have hpL := pairProc_after repl L (s : Int) (e : Int) hwfL hLs
    obtain ⟨hto, s1, hs1, hdrop⟩ := textProc_drop repl L (textProc repl R t) s hwfL hbdL hLsN
    rw [pairProc_append, hpR, hpL, textProc_append]
    have hfst : ((s : Int) - totOff repl.length L).toNat = s1 := by omega
    have hdiff : ((e : Int) - totOff repl.length L - ((s : Int) - totOff repl.length L)).toNat
        = e - s := by omega
    unfold sliceI
    dsimp only
    rw [hfst, hdiff, hdrop]
    unfold sliceN
    rw [← List.drop_take e s (textProc repl R t), ← List.drop_take e s t, htake]

theorem finditerF_cons_none (matchAt : List Char → Option Nat) (fuel : Nat) (c : Char)
    (rest : List Char) (h : matchAt (c :: rest) = none) :
    finditerF matchAt (fuel + 1) (c :: rest) =
      (finditerF matchAt fuel rest).map (fun m => (m.1 + 1, m.2 + 1)) := by
  simp only [finditerF, h]

theorem finditerF_cons_some (matchAt : List Char → Option Nat) (fuel : Nat) (c : Char)
    (rest : List Char) (n : Nat) (h : matchAt (c :: rest) = some n) :
    finditerF matchAt (fuel + 1) (c :: rest) =
      (0, n) :: (finditerF matchAt fuel ((c :: rest).drop n)).map (fun m => (m.1 + n, m.2 + n)) := by
  simp only [finditerF, h]

theorem MatchesWF_shift (n : Nat) :
    ∀ (ms : List (Nat × Nat)), MatchesWF ms →
      MatchesWF (ms.map (fun m => (m.1 + n, m.2 + n)))
  | [], _ => trivial
  | m :: rest, h => by
    obtain ⟨h1, h2, h3⟩ := h
    refine ⟨by dsimp only; omega, ?_, MatchesWF_shift n rest h3⟩
    intro x hx
    obtain ⟨y, hy, rfl⟩ := List.mem_map.mp hx
    dsimp only
    have := h2 y hy
    omega

/-- Any matcher that reports in-bound lengths yields a well-formed, in-bound
match list through the scanner. -/
theorem finditerF_wf (matchAt : List Char → Option Nat)
    (hM : ∀ xs n, matchAt xs = some n → n ≤ xs.length) :
    ∀ (fuel : Nat) (t : List Char),
      MatchesWF (finditerF matchAt fuel t) ∧ ∀ m ∈ finditerF matchAt fuel t, m.2 ≤ t.length
  | 0, t => ⟨trivial, by simp [finditerF]⟩
  | fuel + 1, [] => ⟨trivial, by simp [finditerF]⟩
  | fuel + 1, c :: rest => by
    cases hmA : matchAt (c :: rest) with
    | none =>
      obtain ⟨ih1, ih2⟩ := finditerF_wf matchAt hM fuel rest
      rw [finditerF_cons_none matchAt fuel c rest hmA]
      refine ⟨MatchesWF_shift 1 _ ih1, ?_⟩
      intro m hm
      obtain ⟨y, hy, rfl⟩ := List.mem_map.mp hm
      have := ih2 y hy
      simp only [List.length_cons]
      omega
    | some n =>
      have hn : n ≤ (c :: rest).length := hM _ n hmA
      obtain ⟨ih1, ih2⟩ := finditerF_wf matchAt hM fuel ((c :: rest).drop n)
      rw [finditerF_cons_some matchAt fuel c rest n hmA]
      constructor
      · refine ⟨Nat.zero_le n, ?_, MatchesWF_shift n _ ih1⟩
        intro x hx
        obtain ⟨y, hy, rfl⟩ := List.mem_map.mp hx
        dsimp only
        omega
      · intro m hm
        rcases List.mem_cons.mp hm with rfl | hm
        · exact hn
        · obtain ⟨y, hy, rfl⟩ := List.mem_map.mp hm
          have h2 := ih2 y hy
          have hdl : ((c :: rest).drop n).length = (c :: rest).length - n :=
            List.length_drop n _
          dsimp only
          omega

theorem finditer_wf (matchAt : List Char → Option Nat)
    (hM : ∀ xs n, matchAt xs = some n → n ≤ xs.length) (t : List Char) :
    MatchesWF (finditer matchAt t) ∧ ∀ m ∈ finditer matchAt t, m.2 ≤ t.length :=
  finditerF_wf matchAt hM t.length t

theorem takeWhile_len_le (p : Char → Bool) (l : List Char) : (l.takeWhile p).length ≤ l.length :=
  List.Sublist.length_le (List.takeWhile_sublist p)

theorem matchCite_bound (xs : List Char) (n : Nat) (h : matchCite xs = some n) :
    n ≤ xs.length := by
  unfold matchCite at h
  split at h
  · rename_i hcond
    cases h
    have hne : xs.tail.drop (xs.tail.takeWhile isCiteChar).length ≠ [] := by
      intro hE
      rw [hE] at hcond
      exact Option.noConfusion hcond.2.2
    have hlt : (xs.tail.takeWhile isCiteChar).length < xs.tail.length := by
      by_contra hge
      exact hne (List.drop_of_length_le (by omega))
    have hxne : xs ≠ [] := by
      intro hE
      rw [hE] at hcond
      exact Option.noConfusion hcond.1
    have hlen : xs.tail.length = xs.length - 1 := List.length_tail xs
    have hpos : 0 < xs.length := List.length_pos.mpr hxne
    omega
  · exact Option.noConfusion h

theorem matchWs_bound : ∀ (xs : List Char) (n : Nat), matchWs xs = some n → n ≤ xs.length := by
  intro xs n h
  unfold matchWs at h
  split at h
  · cases h
    exact takeWhile_len_le _ xs
  · exact Option.noConfusion h

theorem matchNl_bound : ∀ (xs : List Char) (n : Nat), matchNl xs = some n → n ≤ xs.length := by
  intro xs n h
  unfold matchNl at h
  split at h
  · cases h
    exact takeWhile_len_le _ xs
  · exact Option.noConfusion h

/-- C1: for every text, annotation list, search pattern (any matcher reporting
in-bound match lengths) and replacement, every span pair of every annotation
that does not overlap any pattern match is updated by `remove_from_regex` in
such a way that slicing the new text at the updated pair yields exactly the
same substring as slicing the original text at the original pair. -/
theorem remove_from_regex_preserves_spans
    (matchAt : List Char → Option Nat)
    (hM : ∀ xs n, matchAt xs = some n → n ≤ xs.length)
    (article : List Char) (anns : List Annot) (repl : List Char)
    (k j : Nat) (a0 : Annot) (s e : Int)
    (hk : anns[k]? = some a0) (hj : a0.span[j]? = some (s, e))
    (hs : 0 ≤ s) (hse : s ≤ e) (he : e ≤ (article.length : Int))
    (hno : ∀ m ∈ finditer matchAt article, e ≤ (m.1 : Int) ∨ (m.2 : Int) ≤ s) :
    ∃ a1 : Annot, (remove_from_regex article anns matchAt repl).2[k]? = some a1 ∧
      ∃ p1 : Int × Int, a1.span[j]? = some p1 ∧
        sliceI (remove_from_regex article anns matchAt repl).1 p1.1 p1.2 = sliceI article s e := by
  obtain ⟨hwf, hbd⟩ := finditer_wf matchAt hM article
  have hpm := processMatches_eq article anns (finditer matchAt article) repl
  refine ⟨annProc repl (finditer matchAt article) a0, ?_,
    pairProc repl (finditer matchAt article) (s, e), ?_, ?_⟩
  · show (remove_from_regex article anns matchAt repl).2[k]? = _
    unfold remove_from_regex
    rw [hpm]
    dsimp only
    rw [List.getElem?_map, hk]
    rfl
  · show (annProc repl (finditer matchAt article) a0).span[j]? = _
    unfold annProc
    dsimp only
    rw [List.getElem?_map, hj]
    rfl
  · have hsEq : ((s.toNat : Int)) = s := Int.toNat_of_nonneg hs
    have heEq : ((e.toNat : Int)) = e := Int.toNat_of_nonneg (le_trans hs hse)
    have hseN : s.toNat ≤ e.toNat := by omega
    have heN' : e.toNat ≤ article.length := by omega
    have hnoN : ∀ m ∈ finditer matchAt article,
        ((e.toNat : Int)) ≤ (m.1 : Int) ∨ (m.2 : Int) ≤ ((s.toNat : Int)) := by
      intro m hm
      rcases hno m hm with h | h
      · exact Or.inl (by omega)
      · exact Or.inr (by omega)
    have hcore := textProc_pairProc_slice repl (finditer matchAt article) article s.toNat e.toNat
      hwf hbd hseN heN' hnoN
    unfold remove_from_regex
    rw [hpm]
    dsimp only
    rw [← hsEq, ← heEq, sliceI_coe]
    exact hcore

def w1text : List Char := ("ab[1]cd").data

def w1ann : Annot := { span := [(0, 2)], spanned_text := "ab", id := "X:0", concept := "x" }

/-- Witness for C1: the concrete text `"ab[1]cd"` with one annotation over
`(0, 2)` and the citation pattern; the single match `(2, 5)` does not overlap
the pair and the sliced substring is preserved. -/
theorem remove_from_regex_preserves_spans_witness :
    (∀ m ∈ finditer matchCite w1text, (2 : Int) ≤ (m.1 : Int) ∨ (m.2 : Int) ≤ (0 : Int)) ∧
    (∃ a1 : Annot, (remove_from_regex w1text [w1ann] matchCite []).2[0]? = some a1 ∧
      ∃ p1 : Int × Int, a1.span[0]? = some p1 ∧
        sliceI (remove_from_regex w1text [w1ann] matchCite []).1 p1.1 p1.2 =
          sliceI w1text 0 2) :=
  ⟨by decide,
    remove_from_regex_preserves_spans matchCite matchCite_bound w1text [w1ann] [] 0 0 w1ann 0 2
      (by decide) (by decide) (by decide) (by decide) (by decide) (by decide)⟩

/-- C2: `remove_from_regex` processes its matches rightmost-first—splicing the
rightmost match and applying its shift to every stored annotation first, then
processing the remaining matches on the updated state—and the per-match shift
subtracts `match_length - replacement_length` from both components of every
span pair whose start is `>=` the match start (a pair starting exactly at the
match start included), leaving pairs that start strictly before unchanged. -/
theorem remove_from_regex_rightmost_first (article : List Char) (anns : List Annot)
    (ms : List (Nat × Nat)) (m : Nat × Nat) (repl : List Char) :
    (∀ matchAt : List Char → Option Nat,
      remove_from_regex article anns matchAt repl =
        processMatches article anns (finditer matchAt article) repl) ∧
    processMatches article anns (ms ++ [m]) repl =
      processMatches (textStep repl article m) (anns.map (stepAnn repl m)) ms repl ∧
    (∀ a : Annot, stepAnn repl m a =
      { a with span := a.span.map (fun p =>
          if (m.1 : Int) ≤ p.1 then
            (p.1 - matchOff repl.length m, p.2 - matchOff repl.length m)
          else p) }) ∧
    (∀ e2 : Int, shiftPair m.1 (matchOff repl.length m) ((m.1 : Int), e2) =
      ((m.1 : Int) - matchOff repl.length m, e2 - matchOff repl.length m)) := by
  refine ⟨fun matchAt => rfl, ?_, fun a => rfl, fun e2 => ?_⟩
  · unfold processMatches
    simp only [List.reverse_append, List.reverse_singleton, List.singleton_append,
      List.foldl_cons, stepState, List.map_reverse]
  · unfold shiftPair
    rw [if_pos (le_refl ((m.1 : Nat) : Int))]

theorem sliceN_append (t : List Char) (i a b : Nat) (h1 : i ≤ a) (h2 : a ≤ b) :
    sliceN t i a ++ sliceN t a b = sliceN t i b := by
  unfold sliceN
  rw [show t.drop a = (t.drop i).drop (a - i) from by rw [List.drop_drop]; congr 1; omega]
  rw [← List.take_add]
  congr 1
  omega

theorem joinSents_append (l1 l2 : List Sentence) :
    joinSents (l1 ++ l2) = joinSents l1 ++ joinSents l2 := by
  unfold joinSents
  rw [List.map_append, List.flatten_append]

theorem joinSents_single (s : Sentence) : joinSents [s] = s.text ++ s.next := by
  simp [joinSents]

/-- The split loop reconstructs exactly the slice of the original text between
the starting index and the end of the last processed newline run. -/
theorem splitAux (text : List Char) :
    ∀ (ms : List (Nat × Nat)) (acc : List Sentence) (i : Nat), MatchesWF ms →
      (∀ m ∈ ms, i ≤ m.1) →
      joinSents (ms.foldl (splitStep text) (acc, i)).1 =
        joinSents acc ++ sliceN text i (ms.foldl (splitStep text) (acc, i)).2 ∧
      i ≤ (ms.foldl (splitStep text) (acc, i)).2
  | [], acc, i, _, _ => by
    constructor
    · show joinSents acc = joinSents acc ++ sliceN text i i
      unfold sliceN
      simp
    · exact le_refl i
  | m :: rest, acc, i, hwf, hlo => by
    obtain ⟨h1, h2, h3⟩ := hwf
    have him : i ≤ m.1 := hlo m (List.mem_cons_self m rest)
    have ih := splitAux text rest
      (acc ++ [mkSentence (sliceN text i m.1) i (sliceN text m.1 m.2)]) m.2 h3 h2
    rw [List.foldl_cons,
      show splitStep text (acc, i) m =
        (acc ++ [mkSentence (sliceN text i m.1) i (sliceN text m.1 m.2)], m.2) from rfl]
    refine ⟨?_, le_trans (le_trans him h1) ih.2⟩
    rw [ih.1, joinSents_append, joinSents_single,
      show (mkSentence (sliceN text i m.1) i (sliceN text m.1 m.2)).text = sliceN text i m.1
        from rfl,
      show (mkSentence (sliceN text i m.1) i (sliceN text m.1 m.2)).next = sliceN text m.1 m.2
        from rfl,
      sliceN_append text i m.1 m.2 him h1, List.append_assoc,
      sliceN_append text i m.2 _ (le_trans him h1) ih.2]

/-- C3 counterexample: for the text `"a\nb"` the split yields only the
sentence `"a"` with separator `"\n"`; the trailing chunk `"b"` after the last
newline run is never emitted, so concatenating text and separators does not
reproduce the original text. -/
theorem split_on_newline_not_lossless :
    joinSents (splitOnNewline ("a\nb").data).1 ≠ ("a\nb").data := by decide

/-- C3 amended: concatenating each produced sentence's text with its `next`
separator, in order, reproduces exactly the prefix of the original text up to
the end of the last newline run (the final `temp_idx`); the trailing chunk
after the last newline run is not represented, so the full text is recovered
only when it ends in a newline run. -/
theorem split_on_newline_join_prefix (text : List Char) :
    joinSents (splitOnNewline text).1 = text.take (splitOnNewline text).2 := by
  obtain ⟨hwf, hbd⟩ := finditer_wf matchNl matchNl_bound text
  have h := splitAux text (finditer matchNl text) [] 0 hwf (fun m _ => Nat.zero_le m.1)
  unfold splitOnNewline
  rw [h.1]
  show [] ++ sliceN text 0 _ = _
  unfold sliceN
  simp

def c4text : List Char :=
  ("survival of striatal neurons [18-20] are therefore of considerable importance in ensuring adaptive behavior at maturity").data

def c4ann : Annot :=
  { span := [(44, 62)]
    spanned_text := "adaptive behavior"
    id := "GO:0051867"
    concept := "general adaptation syndrome, behavioral process" }

/-- C4 counterexample: with the spec's offsets `(44, 62)` the annotation does
not cover `"adaptive behavior"` (slicing the original text there gives
`"refore of consider"`), and after citation removal the updated span
`(37, 55)` still slices `"refore of consider"`—not `"adaptive behavior"` as
the claim states. -/
theorem remove_citations_example_offsets_false :
    (remove_citations_from_text c4text [c4ann]).2.map Annot.span = [[(37, 55)]] ∧
    sliceI (remove_citations_from_text c4text [c4ann]).1 37 55 ≠ ("adaptive behavior").data ∧
    sliceI c4text 44 62 ≠ ("adaptive behavior").data := by decide

def c4ann' : Annot :=
  { span := [(90, 107)]
    spanned_text := "adaptive behavior"
    id := "GO:0051867"
    concept := "general adaptation syndrome, behavioral process" }

/-- C4 amended: the occurrence of `"adaptive behavior"` in the example text is
at offsets `(90, 107)`; with that single-pair span, citation removal updates
the span to `(83, 100)`, which slices the edited text to the identical
substring `"adaptive behavior"`. -/
theorem remove_citations_example_true_offsets :
    sliceI c4text 90 107 = ("adaptive behavior").data ∧
    (remove_citations_from_text c4text [c4ann']).2.map Annot.span = [[(83, 100)]] ∧
    sliceI (remove_citations_from_text c4text [c4ann']).1 83 100 =
      ("adaptive behavior").data := by decide

def c6a1 : Annot :=
  { span := [(73, 84)], spanned_text := "centrosomal", id := "GO:0005813",
    concept := "centrosome" }

def c6a2 : Annot :=
  { span := [(85, 92)], spanned_text := "mitotic", id := "GO:0007067",
    concept := "mitotic nuclear division" }

def c6a3 : Annot :=
  { span := [(85, 100)], spanned_text := "mitotic spindle", id := "GO:0072686",
    concept := "mitotic spindle" }

def c6sent : Sentence :=
  { mkSentence ("The data so far suggest that the ancestral TACC protein played a role in centrosomal/mitotic spindle dynamics.").data 0 [] with
    annotations := [c6a1, c6a2, c6a3] }

/-- C6: on the sentence whose annotations have outer ranges `(73,84)`,
`(85,92)` and `(85,100)`, the classifier returns the single annotation
`(73,84)` as disjoint (sorted by span start descending) and
`[(85,92), (85,100)]` as overlapping (sorted by span start ascending). -/
theorem disjoint_and_overlapping_example :
    disjoint_and_overlapping c6sent = ([c6a1], [c6a2, c6a3]) := by decide

/-! ### Idempotence of whitespace collapse (C7) -/

theorem textProc_shift (repl : List Char) (n : Nat) :
    ∀ (ms : List (Nat × Nat)) (t : List Char), n ≤ t.length →
      textProc repl (ms.map (fun m => (m.1 + n, m.2 + n))) t =
        t.take n ++ textProc repl ms (t.drop n)
  | [], t, h => by
    show t = t.take n ++ t.drop n
    rw [List.take_append_drop]
  | m :: rest, t, h => by
    have ih := textProc_shift repl n rest t h
    have hlen : (t.take n).length = n := List.length_take_of_le h
    rw [List.map_cons, textProc_cons, ih]
    unfold textStep
    dsimp only
    rw [show m.1 + n = (t.take n).length + m.1 from by rw [hlen]; omega,
      show m.2 + n = (t.take n).length + m.2 from by rw [hlen]; omega,
      List.take_append, List.drop_append]
    simp only [List.append_assoc, List.append_cancel_left_eq]
    rw [textProc_cons]
    unfold textStep
    simp [List.append_assoc]

/-- No two adjacent space characters. -/
def NoTwoSpaces (l : List Char) : Prop :=
  List.Chain' (fun a b => ¬(a = ' ' ∧ b = ' ')) l

theorem drop_takeWhile (p : Char → Bool) :
    ∀ (l : List Char), l.drop (l.takeWhile p).length = l.dropWhile p
  | [] => rfl
  | c :: l => by
    by_cases h : p c
    · rw [List.takeWhile_cons_of_pos h, List.dropWhile_cons_of_pos h]
      show (c :: l).drop ((l.takeWhile p).length + 1) = _
      rw [List.drop_succ_cons]
      exact drop_takeWhile p l
    · rw [List.takeWhile_cons_of_neg h, List.dropWhile_cons_of_neg h]
      rfl

theorem head_dropWhile_not_space (l : List Char) (c : Char)
    (h : (l.dropWhile (fun c => c == ' ')).head? = some c) : ¬ c = ' ' := by
  have hx := List.head?_dropWhile_not (fun c => c == ' ') l
  rw [h] at hx
  intro hc
  subst hc
  simp at hx

theorem matchWs_eq_some (xs : List Char) (n : Nat) (h : matchWs xs = some n) :
    n = (xs.takeWhile (fun c => c == ' ')).length ∧ 2 ≤ n := by
  unfold matchWs at h
  split at h
  · cases h
    constructor
    · rfl
    · assumption
  · exact Option.noConfusion h

theorem matchWs_none_cons (c : Char) (rest : List Char)
    (h : matchWs (c :: rest) = none) (hc : c = ' ') :
    ¬ rest.head? = some ' ' := by
  intro hb
  subst hc
  cases rest with
  | nil => exact Option.noConfusion hb
  | cons b rest' =>
    have hb' : b = ' ' := Option.some.inj hb
    subst hb'
    unfold matchWs at h
    rw [List.takeWhile_cons_of_pos (by simp), List.takeWhile_cons_of_pos (by simp)] at h
    simp at h

/-- If a match starts at the head of `c :: rest` then `c` is a space. -/
theorem matchWs_head_space (c : Char) (rest : List Char) (n : Nat)
    (h : matchWs (c :: rest) = some n) : c = ' ' := by
  obtain ⟨hn, h2⟩ := matchWs_eq_some (c :: rest) n h
  by_cases hc : (c == ' ') = true
  · exact beq_iff_eq.mp hc
  · rw [@List.takeWhile_cons_of_neg Char (fun c => c == ' ') c rest hc] at hn
    simp at hn
    omega

/-- After one whitespace-collapse pass no two adjacent spaces remain, and the
first character is unchanged. -/
theorem collapse_noTwoSpaces :
    ∀ (fuel : Nat) (t : List Char), t.length ≤ fuel →
      NoTwoSpaces (textProc [' '] (finditerF matchWs fuel t) t) ∧
      (textProc [' '] (finditerF matchWs fuel t) t).head? = t.head?
  | 0, t, h => by
    have ht : t = [] := List.length_eq_zero.mp (Nat.le_zero.mp h)
    subst ht
    exact ⟨List.chain'_nil, rfl⟩
  | fuel + 1, [], _ => ⟨List.chain'_nil, rfl⟩
  | fuel + 1, c :: rest, h => by
    cases hmA : matchWs (c :: rest) with
    | none =>
      have hlen : rest.length ≤ fuel := by
        simp only [List.length_cons] at h
        omega
      obtain ⟨ih1, ih2⟩ := collapse_noTwoSpaces fuel rest hlen
      rw [finditerF_cons_none matchWs fuel c rest hmA,
        textProc_shift [' '] 1 (finditerF matchWs fuel rest) (c :: rest) (by simp),
        show (c :: rest).take 1 = [c] from rfl, show (c :: rest).drop 1 = rest from rfl,
        List.singleton_append]
      constructor
      · rw [NoTwoSpaces, List.chain'_cons']
        refine ⟨?_, ih1⟩
        intro y hy
        rw [Option.mem_def, ih2] at hy
        rintro ⟨hc, hy'⟩
        subst hy'
        exact matchWs_none_cons c rest hmA hc hy
      · rfl
    | some n =>
      have hspec := matchWs_eq_some (c :: rest) n hmA
      have hbound := matchWs_bound (c :: rest) n hmA
      have hcsp := matchWs_head_space c rest n hmA
      have hlen : ((c :: rest).drop n).length ≤ fuel := by
        rw [List.length_drop]
        simp only [List.length_cons] at h ⊢
        omega
      obtain ⟨ih1, ih2⟩ := collapse_noTwoSpaces fuel ((c :: rest).drop n) hlen
      have hlen1 : ((c :: rest).take n).length = n := List.length_take_of_le hbound
      rw [finditerF_cons_some matchWs fuel c rest n hmA, textProc_cons,
        textProc_shift [' '] n (finditerF matchWs fuel ((c :: rest).drop n)) (c :: rest) hbound]
      unfold textStep
      dsimp only
      rw [List.take_zero, List.nil_append, List.drop_left' hlen1, List.singleton_append]
      constructor
      · rw [NoTwoSpaces, List.chain'_cons']
        refine ⟨?_, ih1⟩
        intro y hy
        rw [Option.mem_def, ih2] at hy
        rintro ⟨-, hy'⟩
        subst hy'
        rw [hspec.1, drop_takeWhile] at hy
        exact head_dropWhile_not_space (c :: rest) ' ' hy rfl
      · rw [hcsp]
        rfl

/-- A text with no two adjacent spaces contains no `[ ]{2,}` match. -/
theorem noTwoSpaces_finditer_nil :
    ∀ (fuel : Nat) (u : List Char), NoTwoSpaces u → finditerF matchWs fuel u = []
  | 0, _, _ => rfl
  | _ + 1, [], _ => rfl
  | fuel + 1, c :: rest, hnd => by
    have hnone : matchWs (c :: rest) = none := by
      cases hcs : matchWs (c :: rest) with
      | none => rfl
      | some n =>
        exfalso
        obtain ⟨hn, h2⟩ := matchWs_eq_some (c :: rest) n hcs
        have hc : c = ' ' := matchWs_head_space c rest n hcs
        cases rest with
        | nil =>
          rw [List.takeWhile_cons_of_pos (by simp [hc])] at hn
          simp [List.takeWhile] at hn
          omega
        | cons b rest' =>
          have hR : ¬(c = ' ' ∧ b = ' ') := (List.chain'_cons.mp hnd).1
          by_cases hb : (b == ' ') = true
          · exact hR ⟨hc, beq_iff_eq.mp hb⟩
          · rw [List.takeWhile_cons_of_pos (by simp [hc]),
              @List.takeWhile_cons_of_neg Char (fun c => c == ' ') b rest' hb] at hn
            simp at hn
            omega
    rw [finditerF_cons_none matchWs fuel c rest hnone,
      noTwoSpaces_finditer_nil fuel rest (List.Chain'.tail hnd)]
    rfl

/-- C7: applying `remove_multiple_whitespaces_from_text` twice in succession
yields the same text as applying it once, for every text and any annotation
lists. -/
theorem remove_multiple_whitespaces_idempotent (t : List Char) (anns1 anns2 : List Annot) :
    (remove_multiple_whitespaces_from_text
        (remove_multiple_whitespaces_from_text t anns1).1 anns2).1 =
      (remove_multiple_whitespaces_from_text t anns1).1 := by
  have h1 : (remove_multiple_whitespaces_from_text t anns1).1 =
      textProc [' '] (finditer matchWs t) t := by
    unfold remove_multiple_whitespaces_from_text remove_from_regex
    rw [processMatches_eq]
  have hnd : NoTwoSpaces (textProc [' '] (finditer matchWs t) t) :=
    (collapse_noTwoSpaces t.length t (le_refl _)).1
  have h0 : finditer matchWs (textProc [' '] (finditer matchWs t) t) = [] :=
    noTwoSpaces_finditer_nil _ _ hnd
  rw [h1]
  unfold remove_multiple_whitespaces_from_text remove_from_regex
  rw [processMatches_eq, h0]
  rfl

/-! ### Sentence segmentation (C5, C8) -/

theorem segmentChunk_annots (anns : List Annot) (chunk : Sentence) (doc : Doc)
    (s : Sentence) (hs : s ∈ segmentChunk anns chunk doc) (a : Annot) :
    a ∈ s.annotations ↔ a ∈ anns ∧
      (s.span.1 : Int) ≤ firstStart a ∧
      lastEnd a ≤ (s.span.1 : Int) + (s.text.length : Int) := by
  unfold segmentChunk at hs
  obtain ⟨pr, hpr, rfl⟩ := List.mem_map.mp hs
  simp only [mkSentence]
  rw [List.mem_filter]
  simp only [decide_eq_true_eq]

theorem segChunks_mem (anns : List Annot) (p : List Char → Doc) :
    ∀ (chunks ss : List Sentence), segChunks anns p chunks = Except.ok ss →
      ∀ s ∈ ss, ∃ chunk, s ∈ segmentChunk anns chunk (p chunk.text)
  | [], ss, h, s, hs => by
    simp only [segChunks] at h
    cases h
    cases hs
  | chunk :: rest, ss, h, s, hs => by
    simp only [segChunks] at h
    by_cases hd : (p chunk.text).hasSentStart = true
    · rw [if_pos hd] at h
      cases hrec : segChunks anns p rest with
      | error e =>
        rw [hrec] at h
        exact absurd h (by simp [Except.map])
      | ok tail =>
        rw [hrec] at h
        simp only [Except.map] at h
        cases h
        rcases List.mem_append.mp hs with h1 | h2
        · exact ⟨chunk, h1⟩
        · exact segChunks_mem anns p rest tail hrec s h2
    · rw [if_neg hd] at h
      exact absurd h (by simp)

/-- C5: during `Article.segment_sentences`, an annotation of the article is
attached to a produced sentence if and only if its first span pair's start is
`>=` the sentence's absolute start `S` and its last span pair's end is `<=`
`S + L` with `L` the sentence text length; an annotation straddling a sentence
boundary satisfies this for no produced sentence and so is attached nowhere. -/
theorem segment_sentences_assignment (art : Article) (p : List Char → Doc)
    (ss : List Sentence) (h : art.segment_sentences (some p) = Except.ok ss)
    (s : Sentence) (hs : s ∈ ss) (a : Annot) :
    a ∈ s.annotations ↔ a ∈ art.annotations ∧
      (s.span.1 : Int) ≤ firstStart a ∧
      lastEnd a ≤ (s.span.1 : Int) + (s.text.length : Int) := by
  unfold Article.segment_sentences at h
  obtain ⟨chunk, hchunk⟩ :=
    segChunks_mem art.annotations p (splitOnNewline art.original_text).1 ss h s hs
  exact segmentChunk_annots art.annotations chunk (p chunk.text) s hchunk a

def w5ann : Annot := { span := [(0, 2)], spanned_text := "ab", id := "X:1", concept := "c" }

def w5art : Article := mkArticle ("ab\ncd").data [w5ann]

def w5parser (t : List Char) : Doc :=
  { sents := [{ text := t, start_char := 0, text_with_ws := t }], hasSentStart := true }

def w5sent : Sentence :=
  { original_text := ("ab").data
    text := ("ab").data
    span := (0, 2)
    next := ("\n").data
    annotations := [w5ann] }

/-- Witness for C5: a two-chunk article, an identity-like parser and an
annotation that fits inside the first sentence. -/
theorem segment_sentences_assignment_witness :
    (w5art.segment_sentences (some w5parser) = Except.ok [w5sent]) ∧
    (w5ann ∈ w5sent.annotations ↔ w5ann ∈ w5art.annotations ∧
      (w5sent.span.1 : Int) ≤ firstStart w5ann ∧
      lastEnd w5ann ≤ (w5sent.span.1 : Int) + (w5sent.text.length : Int)) :=
  ⟨by rfl,
    segment_sentences_assignment w5art w5parser [w5sent] (by rfl) w5sent
      (List.mem_singleton.mpr rfl) w5ann⟩

theorem segChunks_no_missingParser (anns : List Annot) (p : List Char → Doc) :
    ∀ (chunks : List Sentence),
      segChunks anns p chunks ≠ Except.error SegErr.missingParser
  | [] => by simp [segChunks]
  | chunk :: rest => by
    simp only [segChunks]
    by_cases hd : (p chunk.text).hasSentStart = true
    · rw [if_pos hd]
      cases hrec : segChunks anns p rest with
      | error e =>
        have hne := segChunks_no_missingParser anns p rest
        rw [hrec] at hne
        simp only [Except.map]
        intro hEq
        cases hEq
        exact hne rfl
      | ok tail => simp [Except.map]
    · rw [if_neg hd]
      exact fun hEq => SegErr.noConfusion (Except.error.inj hEq)

/-- C8: `Article.segment_sentences` results in `MissingParserError` exactly
when no parser is supplied; with a parser supplied the method never produces
that error (it may only fail the `SENT_START` assertion). -/
theorem segment_sentences_missing_parser_iff (art : Article)
    (parser : Option (List Char → Doc)) :
    art.segment_sentences parser = Except.error SegErr.missingParser ↔ parser = none := by
  cases parser with
  | none => simp [Article.segment_sentences]
  | some p =>
    simp only [Article.segment_sentences]
    constructor
    · intro h
      exact absurd h (segChunks_no_missingParser art.annotations p _)
    · intro h
      exact Option.noConfusion h

/-! ### Cleanup methods on the Article (C9, C10) -/

/-- What the two cleanup methods do on an article with a non-empty annotation
list: `inplace = false` returns the article unchanged together with the edited
pair; `inplace = true` installs the new text and rebuilt annotations while
keeping `original_text` and `sentences`. -/
def CleanupSpec (art : Article) : Prop :=
  (art.remove_citations false = Except.ok (art,
    some (remove_citations_from_text art.current_text
      (art.annotations.map Annot.get_info)))) ∧
  (art.remove_citations true = Except.ok ({ art with
    text := some (remove_citations_from_text art.current_text
      (art.annotations.map Annot.get_info)).1,
    annotations := (remove_citations_from_text art.current_text
      (art.annotations.map Annot.get_info)).2.map annotFromDict }, none)) ∧
  (art.remove_multiple_whitespaces false = Except.ok (art,
    some (remove_multiple_whitespaces_from_text art.current_text
      (art.annotations.map Annot.get_info)))) ∧
  (art.remove_multiple_whitespaces true = Except.ok ({ art with
    text := some (remove_multiple_whitespaces_from_text art.current_text
      (art.annotations.map Annot.get_info)).1,
    annotations := (remove_multiple_whitespaces_from_text art.current_text
      (art.annotations.map Annot.get_info)).2.map annotFromDict }, none))

/-- C9: for every article with a non-empty annotation list, `remove_citations`
and `remove_multiple_whitespaces` with `inplace=False` return the new
(text, annotations) pair and leave the article's `text`, `annotations`,
`original_text` and `sentences` unchanged, while `inplace=True` replaces the
article's `text` and `annotations` with the new values (keeping
`original_text` and `sentences`). -/
theorem article_cleanup_inplace (art : Article) (h : art.annotations ≠ []) :
    CleanupSpec art := by
  have harg : art.annots_arg = Sum.inl (art.annotations.map Annot.get_info) := by
    unfold Article.annots_arg
    rw [if_neg (by simpa using h)]
  refine ⟨?_, ?_, ?_, ?_⟩ <;>
    simp [Article.remove_citations, Article.remove_multiple_whitespaces,
      remove_from_regex_dyn, harg, remove_citations_from_text,
      remove_multiple_whitespaces_from_text]

def w9art : Article :=
  mkArticle ("ab [1] cd").data
    [{ span := [(0, 2)], spanned_text := "ab", id := "X:2", concept := "c" }]

/-- Witness for C9 at a concrete article with one annotation. -/
theorem article_cleanup_inplace_witness :
    (w9art.annotations ≠ []) ∧ CleanupSpec w9art :=
  ⟨by decide, article_cleanup_inplace w9art (by decide)⟩

/-- C10: for every article whose annotation list is empty, both cleanup
methods (in either mode) raise `AttributeError`: the falsy fallback passes the
original text string for the annotation list and `remove_from_regex` fails at
`annotations[::-1].copy()`. -/
theorem article_cleanup_empty_annots_error (art : Article) (inplace : Bool)
    (h : art.annotations = []) :
    art.remove_citations inplace = Except.error PyErr.attributeError ∧
    art.remove_multiple_whitespaces inplace = Except.error PyErr.attributeError := by
  have harg : art.annots_arg = Sum.inr art.original_text := by
    unfold Article.annots_arg
    rw [if_pos (by simp [h])]
  constructor <;>
    simp [Article.remove_citations, Article.remove_multiple_whitespaces,
      remove_from_regex_dyn, harg]

def w10art : Article := mkArticle ("a [1] b").data []

/-- Witness for C10 at a concrete article with no annotations. -/
theorem article_cleanup_empty_annots_error_witness :
    (w10art.annotations = []) ∧
    (w10art.remove_citations true = Except.error PyErr.attributeError ∧
      w10art.remove_multiple_whitespaces true = Except.error PyErr.attributeError) :=
  ⟨rfl, article_cleanup_empty_annots_error w10art true rfl⟩
